import Mathlib

/-!
Verification of the LHSPG optimizer (only_train_once/optimizer/lhspg.py).

The definitions below are a shallow embedding of the parts of `lhspg.py`
relevant to the claims: the cluster-assignment logic of the constructor,
the gradient-variant bookkeeping, the redundant-group selector, the
per-parameter-group index-set state machine (important / pruned /
active-redundant), and the scalar schedule arithmetic.  Python integer
division and modulo are floor-based, hence `Int.fdiv` / `Int.fmod`;
Python list slicing `l[:k]` with a possibly negative bound is `pyTake`.
-/

namespace LHSPG

/-- Python substring test `sub in s` on strings. -/
def strIn (sub s : String) : Bool :=
  (List.range (s.toList.length + 1)).any
    (fun i => decide (sub.toList = (s.toList.drop i).take sub.toList.length))

/-- Python list slice `l[:k]` where `k` is a Python int: a nonnegative bound
takes the first `k` elements, a negative bound drops the last `-k` elements. -/
def pyTake (k : ℤ) (l : List ℕ) : List ℕ :=
  if 0 ≤ k then l.take k.toNat else l.take (l.length - (-k).toNat)

/-- Configuration record of one parameter group as supplied to the
constructor: tensor names, its number of structural groups and the
`is_prunable` flag (lhspg.py lines 77-93 only read these fields). -/
structure ParamGroupCfg where
  p_names : List String
  num_groups : ℕ
  is_prunable : Bool
deriving DecidableEq

/-- Cluster membership, lhspg.py lines 77-86: a prunable parameter group
joins cluster `cluster_name` iff `cluster_name in p_name` (Python substring
test) holds for one of its tensor names. -/
def clusterMembers (cluster_name : String) (groups : List ParamGroupCfg) : List ParamGroupCfg :=
  groups.filter (fun g => g.is_prunable && g.p_names.any (fun pn => strIn cluster_name pn))

/-- Total prunable group count for a scalar `target_group_sparsity`,
lhspg.py lines 71 and 88-93: the scalar is wrapped as the single cluster
named "overall" and `total_num_groups` sums `num_groups` over the members
of that cluster. -/
def totalNumGroupsScalar (groups : List ParamGroupCfg) : ℕ :=
  ((clusterMembers "overall" groups).map (fun g => g.num_groups)).sum

/-- Gradient-variant construction, lhspg.py lines 257-268 (plain sgd path,
no weight decay or momentum): tensors whose gradient is absent are skipped
(lines 259-260), so `grad_variant` holds exactly the names with a gradient. -/
def gradVariantOf (grads : List (String × Option ℚ)) : List (String × ℚ) :=
  grads.filterMap (fun ng => ng.2.map (fun g => (ng.1, g)))

/-- Update of one tensor in the branch of step() for groups that are not
prunable or have an empty active-redundant set, lhspg.py lines 312-318:
a name missing from `grad_variant` is skipped (lines 314-315), otherwise
the update `p -= lr * grad_variant[p_name]` is applied (line 318). -/
def updateNoActive (gv : List (String × ℚ)) (lr : ℚ) (p_name : String) (p : ℚ) : ℚ :=
  match gv.lookup p_name with
  | none => p
  | some g => p - lr * g

/-- Update of one tensor in the branch of step() for prunable groups with a
non-empty active-redundant set, lhspg.py lines 319-347.  The guard on
`p_name not in group['grad_variant']` is commented out there (lines
321-322), so for a tensor whose name contains "lora_B" (line 323) or
"lora_embedding_B" (line 344) the access `group['grad_variant'][p_name]`
(lines 326/347) is a hard dictionary lookup: an absent gradient raises
KeyError, modelled as `none`.  Other tensors of the group receive no
update in this branch.  The decay-ramp multiplication that follows the
gradient update is modelled separately by `rampFactor`. -/
def updateActiveB (gv : List (String × ℚ)) (lr : ℚ) (p_name : String) (p : ℚ) : Option ℚ :=
  if strIn "lora_B" p_name then
    match gv.lookup p_name with
    | none => none
    | some g => some (p - lr * g)
  else if strIn "lora_embedding_B" p_name then
    match gv.lookup p_name with
    | none => none
    | some g => some (p - lr * g)
  else some p

/-- Total preorder on global indices by importance score (`scores` is the
per-cluster concatenated importance vector of compute_importance_scores,
index = global index), ties broken by index.  `torch.topk(-scores, K)`
returns the K smallest scores; for pairwise distinct scores any tie-break
gives the same result, so this stable order models it exactly. -/
def leScore (scores : List ℚ) (i j : ℕ) : Prop :=
  scores.getD i 0 < scores.getD j 0 ∨ (scores.getD i 0 = scores.getD j 0 ∧ i ≤ j)

instance (scores : List ℚ) : DecidableRel (leScore scores) := fun i j => by
  unfold leScore
  infer_instance

/-- Model of `torch.topk(-cluster_importance_score, K)` at lhspg.py line
221: the indices of the K lowest scores, in ascending-score order. -/
def topkLowest (scores : List ℚ) (K : ℕ) : List ℕ :=
  (List.insertionSort (leScore scores) (List.range scores.length)).take K

/-- Model of `np.setdiff1d(a, b)` (lhspg.py line 223): the unique values of
`a` that are not in `b`, returned SORTED in ascending order. -/
def npSetdiff1d (a b : List ℕ) : List ℕ :=
  List.insertionSort (fun i j => i ≤ j) ((a.filter (fun i => decide (i ∉ b))).dedup)

/-- One cluster's selection round, lhspg.py lines 216-223: take the
`curr_K = len(pruned_group_idx_by_cluster[c]) + active_num_redundant_groups`
lowest-scoring global indices, remove the already-pruned ones with
`np.setdiff1d`, and truncate to the first `active_num_redundant_groups`
entries of the resulting (index-sorted) array. -/
def selectRedundantCluster (scores : List ℚ) (clusterPruned : List ℕ) (quota : ℕ) : List ℕ :=
  (npSetdiff1d (topkLowest scores (clusterPruned.length + quota)) clusterPruned).take quota

/-- Selection as worded by the spec (§4.3), for comparison in claim C3:
"take the K lowest-scoring global indices; remove indices already pruned;
keep the first `quota` remaining (in ascending-score order)".
`topkLowest` is in ascending-score order and `List.filter` preserves it. -/
def selectRedundantSpec (scores : List ℚ) (clusterPruned : List ℕ) (quota : ℕ) : List ℕ :=
  ((topkLowest scores (clusterPruned.length + quota)).filter
    (fun i => decide (i ∉ clusterPruned))).take quota

/-- Localisation of a cluster-level selection to one group, lhspg.py lines
228-229: `np.intersect1d(top_indices, group['global_idxes']) -
group['global_start_idx']` (intersect1d returns sorted unique values;
`global_idxes = np.arange(global_start_idx, global_start_idx+num_groups)`). -/
def localSelection (top_indices : List ℕ) (global_start num_groups : ℕ) : List ℕ :=
  (((List.range num_groups).map (fun i => global_start + i)).filter
    (fun g => decide (g ∈ top_indices))).map (fun g => g - global_start)

/-- Index-set state of one parameter group: the lists
`important_idxes[id]`, `pruned_idxes[id]` and `active_redundant_idxes[id]`
of lhspg.py. -/
structure GroupState where
  important : List ℕ
  pruned : List ℕ
  active : List ℕ
deriving DecidableEq

/-- Constructor state, lhspg.py lines 130-133: important is the full index
range, pruned and active-redundant are empty. -/
def initState (n : ℕ) : GroupState :=
  ⟨List.range n, [], []⟩

/-- Canonical form of an important-index list: the full range with the
pruned and active indices removed, in ascending order. -/
def canonImportant (n : ℕ) (pr ac : List ℕ) : List ℕ :=
  (List.range n).filter (fun i => decide (i ∉ pr) && decide (i ∉ ac))

/-- commit_redundant_idxes for one group, lhspg.py lines 289-291: extend
pruned by the active-redundant indices, clear active, and recompute
important as all indices of `range(num_groups)` not in pruned. -/
def commitGroup (n : ℕ) (st : GroupState) : GroupState :=
  let pr := st.pruned ++ st.active
  ⟨(List.range n).filter (fun i => decide (i ∉ pr)), pr, []⟩

/-- Divisibility refinement of a group's freshly selected active-redundant
list `sel`, lhspg.py lines 235-247 (the `num_groups >= group_divisible`
branch).  `trial` may be computed with Python int subtraction, `//` and `%`
are floor division and floor modulo (`Int.fdiv` / `Int.fmod`), and line
247 is the Python slice `[:refined_num_active_redundant_groups]` whose
bound can be negative, hence `pyTake`.  The bookkeeping update of
`self.target_num_redundant_groups` at line 246 touches no index set and is
not modelled. -/
def refineActive (n d prunedLen importantLen : ℕ) (sel : List ℕ) : List ℕ :=
  let trial : ℤ := (importantLen : ℤ) - (sel.length : ℤ)
  if trial.fmod d ≠ 0 ∨ trial ≤ 0 then
    let rq : ℤ := trial.fdiv d + 1
    let refined0 : ℤ := if rq ≤ 1 ∨ trial = 0 then max (d : ℤ) 1 else max (rq * d) (d : ℤ)
    let refined : ℤ := min (n : ℤ) refined0
    pyTake ((n : ℤ) - (prunedLen : ℤ) - refined) sel
  else sel

/-- identify_redundant_groups for one group, lhspg.py lines 226-250, given
the localised selection `sel` of line 229.  If `num_groups <
self.group_divisible` both active and pruned are cleared (lines 231-233);
otherwise the selection is refined for divisibility (lines 234-247).
Line 248 then recomputes important by filtering the previous important
list against the new active list and the pruned list. -/
def identifyGroup (n d : ℕ) (sel : List ℕ) (st : GroupState) : GroupState :=
  if n < d then
    ⟨st.important.filter (fun i => decide (i ∉ ([] : List ℕ)) && decide (i ∉ ([] : List ℕ))),
      [], []⟩
  else
    let ac := refineActive n d st.pruned.length st.important.length sel
    ⟨st.important.filter (fun i => decide (i ∉ ac) && decide (i ∉ st.pruned)), st.pruned, ac⟩

/-- Side conditions satisfied by every localised selection the optimizer
can hand to identifyGroup: `topkLowest` has no duplicates, `np.setdiff1d`
removes every index of `pruned_group_idx_by_cluster` (which accumulates
all previously selected indices, line 224, hence every index the group
ever committed to its pruned list), and localisation (lines 228-229) keeps
only indices below `num_groups`.  These facts are proved for the embedded
selector in the lemmas about selectRedundantCluster and localSelection. -/
def SelOK (n : ℕ) (st : GroupState) (sel : List ℕ) : Prop :=
  sel.Nodup ∧ ∀ i ∈ sel, i < n ∧ i ∉ st.pruned

instance (n : ℕ) (st : GroupState) (sel : List ℕ) : Decidable (SelOK n st sel) := by
  unfold SelOK
  infer_instance

/-- States of one group's index sets reachable by the optimizer.  step()
mutates the three index lists only through commit_redundant_idxes (lines
304 and 394-395) and identify_redundant_groups (line 306), and every call
of identify_redundant_groups is immediately preceded by a call of
commit_redundant_idxes (lines 304-306); whether either runs at a given
step depends on the scheduler counters, so reachability is closed under
both an isolated commit and a commit-then-identify pair. -/
inductive Reach (n d : ℕ) : GroupState → Prop where
  | start : Reach n d (initState n)
  | select {st : GroupState} {sel : List ℕ} : Reach n d st →
      SelOK n (commitGroup n st) sel →
      Reach n d (identifyGroup n d sel (commitGroup n st))
  | commitOnly {st : GroupState} : Reach n d st → Reach n d (commitGroup n st)

/-- Data of one parameter group during one step() call: its group count
and divisibility constraint, its index-set state when the step begins,
whether the scheduler fires a selection round this step (lhspg.py lines
301-307), the localised selection used then, and whether the end-of-period
commit fires (line 394). -/
structure StepSpec where
  n : ℕ
  d : ℕ
  st : GroupState
  doSelect : Bool
  sel : List ℕ
  doCommit : Bool

/-- Effect of one step() call on one group's index sets: optionally
commit-then-identify (lines 304-306), then optionally the end-of-period
commit (lines 394-395). -/
def stepIdx (s : StepSpec) : GroupState :=
  let st1 := if s.doSelect then identifyGroup s.n s.d s.sel (commitGroup s.n s.st) else s.st
  if s.doCommit then commitGroup s.n st1 else st1

/-- Total permanently-pruned count over a list of parameter groups before
their step effects are applied. -/
def totalPrunedBefore (l : List StepSpec) : ℕ :=
  (l.map (fun s => s.st.pruned.length)).sum

/-- Total permanently-pruned count over a list of parameter groups after
their step effects are applied. -/
def totalPrunedAfter (l : List StepSpec) : ℕ :=
  (l.map (fun s => (stepIdx s).pruned.length)).sum

/-- Invariant of one group's index-set state, carried through every
reachable state. -/
structure Inv (n d : ℕ) (st : GroupState) : Prop where
  cf : st.important = canonImportant n st.pruned st.active
  ndp : st.pruned.Nodup
  nda : st.active.Nodup
  dis : ∀ i ∈ st.active, i ∉ st.pruned
  bp : ∀ i ∈ st.pruned, i < n
  ba : ∀ i ∈ st.active, i < n
  small : n < d → st.pruned = [] ∧ st.active = []
  divOk : 0 < d → d ≤ n → (st.pruned ≠ [] ∨ st.active ≠ []) →
      d ∣ st.important.length ∧ 0 < st.important.length

/-- Stored period count, lhspg.py line 26: `int(max(1, pruning_periods))`. -/
def pruningPeriodsStored (pruning_periods : ℤ) : ℤ :=
  max 1 pruning_periods

/-- Period length, lhspg.py line 27:
`pruning_steps // self.pruning_periods` (Python floor division). -/
def pruningPeriodDurationOf (pruning_steps pruning_periods : ℤ) : ℤ :=
  pruning_steps.fdiv (pruningPeriodsStored pruning_periods)

/-- In-period step counter, lhspg.py line 310:
`t = (num_steps - start_pruning_step) % pruning_period_duration`.
Python `%` with a positive modulus agrees with `Int.emod`. -/
def tCounter (num_steps start_pruning_step T : ℤ) : ℤ :=
  (num_steps - start_pruning_step) % T

/-- Decay ramp factor applied to an active-redundant slice, lhspg.py lines
340-343 and 350-352:
`(pruning_period_duration - t - 1.0) / (pruning_period_duration - t)`. -/
def rampFactor (T t : ℤ) : ℚ :=
  ((T : ℚ) - (t : ℚ) - 1) / ((T : ℚ) - (t : ℚ))

/-- Adam bias-correction denominator, lhspg.py lines 255-256:
`1.0 - momentum ** self.num_steps`. -/
def biasCorrection (momentum : ℚ) (num_steps : ℕ) : ℚ :=
  1 - momentum ^ num_steps

/-- Value of `self.num_steps` at the first call of compute_grad_variant:
the constructor sets `num_steps = 0` (line 23) and step() increments it
(line 295) before calling compute_grad_variant (line 298). -/
def numStepsAtFirstGradVariant : ℕ :=
  0 + 1

theorem mem_canonImportant {n : ℕ} {pr ac : List ℕ} {i : ℕ} :
    i ∈ canonImportant n pr ac ↔ i < n ∧ i ∉ pr ∧ i ∉ ac := by
  simp [canonImportant, List.mem_filter, List.mem_range, and_assoc]

theorem nodup_canonImportant (n : ℕ) (pr ac : List ℕ) : (canonImportant n pr ac).Nodup :=
  (List.nodup_range n).filter _

theorem length_canonImportant (n : ℕ) (pr ac : List ℕ) (hpr : pr.Nodup) (hac : ac.Nodup)
    (hdis : ∀ i ∈ ac, i ∉ pr) (hbp : ∀ i ∈ pr, i < n) (hba : ∀ i ∈ ac, i < n) :
    (canonImportant n pr ac).length = n - pr.length - ac.length := by
  classical
  have hnd : (canonImportant n pr ac).Nodup := nodup_canonImportant n pr ac
  have hset : (canonImportant n pr ac).toFinset =
      Finset.range n \ (pr.toFinset ∪ ac.toFinset) := by
    ext i
    simp only [List.mem_toFinset, Finset.mem_sdiff, Finset.mem_union, Finset.mem_range,
      mem_canonImportant]
    tauto
  have hsub : pr.toFinset ∪ ac.toFinset ⊆ Finset.range n := by
    intro i hi
    rcases Finset.mem_union.mp hi with h | h
    · exact Finset.mem_range.mpr (hbp i (List.mem_toFinset.mp h))
    · exact Finset.mem_range.mpr (hba i (List.mem_toFinset.mp h))
  have hdisj : Disjoint pr.toFinset ac.toFinset := by
    rw [Finset.disjoint_right]
    intro i hi
    simp only [List.mem_toFinset] at hi ⊢
    exact fun hmem => hdis i hi hmem
  have hcard := List.toFinset_card_of_nodup hnd
  rw [hset, Finset.card_sdiff hsub, Finset.card_union_of_disjoint hdisj, Finset.card_range,
    List.toFinset_card_of_nodup hpr, List.toFinset_card_of_nodup hac] at hcard
  omega

theorem length_add_length_le (n : ℕ) (pr ac : List ℕ) (hpr : pr.Nodup) (hac : ac.Nodup)
    (hdis : ∀ i ∈ ac, i ∉ pr) (hbp : ∀ i ∈ pr, i < n) (hba : ∀ i ∈ ac, i < n) :
    pr.length + ac.length ≤ n := by
  classical
  have hsub : pr.toFinset ∪ ac.toFinset ⊆ Finset.range n := by
    intro i hi
    rcases Finset.mem_union.mp hi with h | h
    · exact Finset.mem_range.mpr (hbp i (List.mem_toFinset.mp h))
    · exact Finset.mem_range.mpr (hba i (List.mem_toFinset.mp h))
  have hdisj : Disjoint pr.toFinset ac.toFinset := by
    rw [Finset.disjoint_right]
    intro i hi
    simp only [List.mem_toFinset] at hi ⊢
    exact fun hmem => hdis i hi hmem
  have hle := Finset.card_le_card hsub
  rw [Finset.card_union_of_disjoint hdisj, Finset.card_range,
    List.toFinset_card_of_nodup hpr, List.toFinset_card_of_nodup hac] at hle
  exact hle

theorem pyTake_sublist (k : ℤ) (l : List ℕ) : (pyTake k l).Sublist l := by
  unfold pyTake
  split
  · exact List.take_sublist _ _
  · exact List.take_sublist _ _

theorem pyTake_length_of_nonneg {k : ℤ} (hk : 0 ≤ k) (l : List ℕ) :
    (pyTake k l).length = min k.toNat l.length := by
  rw [pyTake, if_pos hk, List.length_take]

theorem refineActive_sublist (n d p I : ℕ) (sel : List ℕ) :
    (refineActive n d p I sel).Sublist sel := by
  unfold refineActive
  dsimp only
  split
  · exact pyTake_sublist _ _
  · exact List.Sublist.refl _

theorem int_eq_zero_of_dvd_of_lt {d x : ℤ} (hd : 0 < d) (h0 : 0 ≤ x) (hx : x < d)
    (hdvd : d ∣ x) : x = 0 := by
  rcases hdvd with ⟨c, rfl⟩
  rcases lt_trichotomy c 0 with hc | hc | hc
  · exact absurd h0 (not_le.mpr (mul_neg_of_pos_of_neg hd hc))
  · rw [hc, mul_zero]
  · have : d ≤ d * c := le_mul_of_one_le_right hd.le hc
    omega

theorem refineActive_spec (n d p : ℕ) (sel : List ℕ) (hd : 0 < d) (hdn : d ≤ n)
    (hk : p + sel.length ≤ n)
    (hprev : p ≠ 0 → d ∣ (n - p) ∧ 0 < n - p) :
    p ≠ 0 ∨ refineActive n d p (n - p) sel ≠ [] →
      d ∣ (n - p - (refineActive n d p (n - p) sel).length) ∧
      0 < n - p - (refineActive n d p (n - p) sel).length := by
  unfold refineActive
  dsimp only
  set trial : ℤ := ((n - p : ℕ) : ℤ) - (sel.length : ℤ) with htrial
  have htr0 : 0 ≤ trial := by omega
  have hfd := Int.fmod_add_fdiv trial (d : ℤ)
  set fm := trial.fmod (d : ℤ) with hfmdef
  set fd := trial.fdiv (d : ℤ) with hfddef
  have hdz : (0 : ℤ) < (d : ℤ) := by exact_mod_cast hd
  have hfm0 : 0 ≤ fm := Int.fmod_nonneg' trial hdz
  have hfmlt : fm < (d : ℤ) := Int.fmod_lt_of_pos trial hdz
  have hfd0 : 0 ≤ fd := Int.fdiv_nonneg htr0 hdz.le
  split
  · -- the refinement at lines 237-247 fires
    next hguard =>
    split
    · -- lines 240-241: ratio at most one or empty trial count, refined = group_divisible
      next hB1 =>
      have htrlt : trial < (d : ℤ) := by
        rcases hB1 with h | h
        · have hfdz : fd = 0 := by omega
          rw [hfdz, mul_zero] at hfd
          omega
        · omega
      have hdle : d ≤ n - p := by
        by_cases hp : p = 0
        · omega
        · obtain ⟨hdvdI, hIpos⟩ := hprev hp
          exact Nat.le_of_dvd hIpos hdvdI
      have hmax : (d : ℤ) ⊔ 1 = (d : ℤ) := max_eq_left (by omega)
      have hmin : (n : ℤ) ⊓ (d : ℤ) = (d : ℤ) := min_eq_right (by exact_mod_cast hdn)
      rw [hmax, hmin]
      have hB0 : (0 : ℤ) ≤ (n : ℤ) - (p : ℤ) - (d : ℤ) := by omega
      intro _
      have hvalue : n - p - (pyTake ((n : ℤ) - (p : ℤ) - (d : ℤ)) sel).length = d := by
        rw [pyTake_length_of_nonneg hB0]
        omega
      rw [hvalue]
      exact ⟨dvd_refl d, hd⟩
    · -- lines 242-243: refined = ratio * group_divisible
      next hB1 =>
      push_neg at hB1
      obtain ⟨hfd1, htrne⟩ := hB1
      have htrpos : 0 < trial := lt_of_le_of_ne htr0 (Ne.symm htrne)
      have hfm1 : 1 ≤ fm := by
        rcases hguard with h | h
        · omega
        · omega
      set A := (d : ℤ) * fd with hA
      have hrqd : (fd + 1) * (d : ℤ) = A + (d : ℤ) := by rw [hA]; ring
      have hmax2 : (fd + 1) * (d : ℤ) ⊔ (d : ℤ) = (fd + 1) * (d : ℤ) := by
        apply max_eq_left
        have h1 : (1 : ℤ) ≤ fd + 1 := by omega
        exact le_mul_of_one_le_left hdz.le h1
      have hA0 : 0 ≤ A := mul_nonneg hdz.le hfd0
      have hdvdA : (d : ℤ) ∣ A := hA ▸ dvd_mul_right (d : ℤ) fd
      by_cases hp : p = 0
      · by_cases hple : A + (d : ℤ) ≤ (n : ℤ)
        · have hmin2 : (n : ℤ) ⊓ (A + (d : ℤ)) = A + (d : ℤ) := min_eq_right hple
          rw [hmax2, hrqd, hmin2]
          have hB0 : (0 : ℤ) ≤ (n : ℤ) - (p : ℤ) - (A + (d : ℤ)) := by omega
          intro _
          have hvalue :
              ((n - p - (pyTake ((n : ℤ) - (p : ℤ) - (A + (d : ℤ))) sel).length : ℕ) : ℤ) =
                A + (d : ℤ) := by
            rw [pyTake_length_of_nonneg hB0]
            omega
          constructor
          · have h2 : (d : ℤ) ∣
                ((n - p - (pyTake ((n : ℤ) - (p : ℤ) - (A + (d : ℤ))) sel).length : ℕ) : ℤ) := by
              rw [hvalue]
              exact dvd_add hdvdA (dvd_refl _)
            exact_mod_cast h2
          · omega
        · have hmin2 : (n : ℤ) ⊓ (A + (d : ℤ)) = (n : ℤ) := min_eq_left (by omega)
          rw [hmax2, hrqd, hmin2]
          intro hyp
          rcases hyp with h | h
          · exact absurd hp h
          · exfalso
            apply h
            have hz : ((n : ℤ) - (p : ℤ) - (n : ℤ)) = 0 := by omega
            rw [hz]
            simp [pyTake]
      · obtain ⟨hdvdI, hIpos⟩ := hprev hp
        have hdvdIz : (d : ℤ) ∣ ((n - p : ℕ) : ℤ) := Int.natCast_dvd_natCast.mpr hdvdI
        have hAltI : A < ((n - p : ℕ) : ℤ) := by omega
        have hdvdsub : (d : ℤ) ∣ (((n - p : ℕ) : ℤ) - A) := dvd_sub hdvdIz hdvdA
        have hsum : A + (d : ℤ) ≤ ((n - p : ℕ) : ℤ) := by
          have h2 : 0 < ((n - p : ℕ) : ℤ) - A := by omega
          have h3 := Int.le_of_dvd h2 hdvdsub
          omega
        have hple : A + (d : ℤ) ≤ (n : ℤ) := by omega
        have hmin2 : (n : ℤ) ⊓ (A + (d : ℤ)) = A + (d : ℤ) := min_eq_right hple
        rw [hmax2, hrqd, hmin2]
        have hB0 : (0 : ℤ) ≤ (n : ℤ) - (p : ℤ) - (A + (d : ℤ)) := by omega
        intro _
        have hvalue :
            ((n - p - (pyTake ((n : ℤ) - (p : ℤ) - (A + (d : ℤ))) sel).length : ℕ) : ℤ) =
              A + (d : ℤ) := by
          rw [pyTake_length_of_nonneg hB0]
          omega
        constructor
        · have h2 : (d : ℤ) ∣
              ((n - p - (pyTake ((n : ℤ) - (p : ℤ) - (A + (d : ℤ))) sel).length : ℕ) : ℤ) := by
            rw [hvalue]
            exact dvd_add hdvdA (dvd_refl _)
          exact_mod_cast h2
        · omega
  · -- no refinement: trial is already a positive multiple of group_divisible
    next hguard =>
    push_neg at hguard
    obtain ⟨hfmz, htrpos⟩ := hguard
    intro _
    have hdvd : (d : ℤ) ∣ trial := ⟨fd, by linarith⟩
    have hlen : ((n - p - sel.length : ℕ) : ℤ) = trial := by omega
    constructor
    · have h2 : (d : ℤ) ∣ ((n - p - sel.length : ℕ) : ℤ) := by
        rw [hlen]
        exact hdvd
      exact_mod_cast h2
    · omega

theorem canon_nil (n : ℕ) (P : List ℕ) :
    canonImportant n P [] = (List.range n).filter (fun i => decide (i ∉ P)) := by
  unfold canonImportant
  apply List.filter_congr
  intro i _
  simp

theorem inv_init (n d : ℕ) : Inv n d (initState n) := by
  refine ⟨?_, List.nodup_nil, List.nodup_nil, ?_, ?_, ?_, ?_, ?_⟩
  · unfold initState canonImportant
    rw [eq_comm]
    apply List.filter_eq_self.mpr
    intro i _
    simp
  · intro i hi
    simp [initState] at hi
  · intro i hi
    simp [initState] at hi
  · intro i hi
    simp [initState] at hi
  · intro _
    exact ⟨rfl, rfl⟩
  · intro _ _ hne
    rcases hne with h | h <;> exact absurd rfl h

theorem inv_commit (n d : ℕ) (st : GroupState) (h : Inv n d st) :
    Inv n d (commitGroup n st) := by
  obtain ⟨cf, ndp, nda, dis, bp, ba, small, divOk⟩ := h
  have hdisj : st.pruned.Disjoint st.active := fun a hp ha => dis a ha hp
  have hndP : (st.pruned ++ st.active).Nodup := ndp.append nda hdisj
  have hbP : ∀ i ∈ st.pruned ++ st.active, i < n := by
    intro i hi
    rcases List.mem_append.mp hi with h' | h'
    · exact bp i h'
    · exact ba i h'
  refine ⟨?_, hndP, List.nodup_nil, ?_, hbP, ?_, ?_, ?_⟩
  · show (List.range n).filter _ = canonImportant n (st.pruned ++ st.active) []
    rw [canon_nil]
  · intro i hi
    simp [commitGroup] at hi
  · intro i hi
    simp [commitGroup] at hi
  · intro hnd
    obtain ⟨h1, h2⟩ := small hnd
    constructor
    · show st.pruned ++ st.active = []
      rw [h1, h2]
      rfl
    · rfl
  · intro hd0 hdn hne
    have hne' : st.pruned ≠ [] ∨ st.active ≠ [] := by
      rcases hne with h' | h'
      · by_contra hcon
        push_neg at hcon
        obtain ⟨hc1, hc2⟩ := hcon
        apply h'
        show st.pruned ++ st.active = []
        rw [hc1, hc2]
        rfl
      · exact absurd rfl h'
    obtain ⟨hdvd, hpos⟩ := divOk hd0 hdn hne'
    have hlenold : st.important.length = n - st.pruned.length - st.active.length := by
      rw [cf]
      exact length_canonImportant n st.pruned st.active ndp nda dis bp ba
    have hlennew : (commitGroup n st).important.length =
        n - (st.pruned.length + st.active.length) := by
      show ((List.range n).filter _).length = _
      rw [← canon_nil]
      have := length_canonImportant n (st.pruned ++ st.active) [] hndP List.nodup_nil
        (by intro i hi; simp at hi) hbP (by intro i hi; simp at hi)
      rw [this]
      simp [List.length_append]
    have heq : (commitGroup n st).important.length = st.important.length := by omega
    rw [heq]
    exact ⟨hdvd, hpos⟩

theorem inv_identify (n d : ℕ) (st : GroupState) (sel : List ℕ) (h : Inv n d st)
    (hact : st.active = []) (hsel : SelOK n st sel) :
    Inv n d (identifyGroup n d sel st) := by
  obtain ⟨cf, ndp, nda, dis, bp, ba, small, divOk⟩ := h
  obtain ⟨hselnd, hselmem⟩ := hsel
  unfold identifyGroup
  dsimp only
  split
  · next hnd =>
    obtain ⟨hp0, _⟩ := small hnd
    have himp : st.important.filter
        (fun i => decide (i ∉ ([] : List ℕ)) && decide (i ∉ ([] : List ℕ))) = st.important := by
      apply List.filter_eq_self.mpr
      intro a _
      simp
    refine ⟨?_, List.nodup_nil, List.nodup_nil, ?_, ?_, ?_, ?_, ?_⟩
    · show st.important.filter _ = canonImportant n [] []
      rw [himp, cf, hp0, hact]
    · intro i hi
      simp at hi
    · intro i hi
      simp at hi
    · intro i hi
      simp at hi
    · intro _
      exact ⟨rfl, rfl⟩
    · intro _ hdn
      omega
  · next hnd =>
    have hdn : d ≤ n := by omega
    set AC := refineActive n d st.pruned.length st.important.length sel with hACdef
    have hsub : AC.Sublist sel := refineActive_sublist n d st.pruned.length st.important.length sel
    have hACnd : AC.Nodup := List.Nodup.sublist hsub hselnd
    have hACmem : ∀ i ∈ AC, i < n ∧ i ∉ st.pruned := fun i hi => hselmem i (hsub.subset hi)
    have hcf : st.important.filter (fun i => decide (i ∉ AC) && decide (i ∉ st.pruned)) =
        canonImportant n st.pruned AC := by
      rw [cf, hact, canon_nil, List.filter_filter]
      apply List.filter_congr
      intro a _
      by_cases h1 : a ∈ st.pruned <;> by_cases h2 : a ∈ AC <;> simp [h1, h2]
    have hlenI : st.important.length = n - st.pruned.length := by
      rw [cf, hact, length_canonImportant n st.pruned [] ndp List.nodup_nil
        (fun i hi => absurd hi (List.not_mem_nil i)) bp
        (fun i hi => absurd hi (List.not_mem_nil i))]
      simp
    refine ⟨hcf, ndp, hACnd, ?_, bp, ?_, ?_, ?_⟩
    · intro i hi
      exact (hACmem i hi).2
    · intro i hi
      exact (hACmem i hi).1
    · intro h'
      exact absurd h' hnd
    · intro hd0 hdn' hne
      show d ∣ (st.important.filter _).length ∧ 0 < (st.important.filter _).length
      rw [hcf, length_canonImportant n st.pruned AC ndp hACnd
        (fun i hi => (hACmem i hi).2) bp (fun i hi => (hACmem i hi).1)]
      have hk : st.pruned.length + sel.length ≤ n :=
        length_add_length_le n st.pruned sel ndp hselnd
          (fun i hi => (hselmem i hi).2) bp (fun i hi => (hselmem i hi).1)
      have hprev : st.pruned.length ≠ 0 → d ∣ (n - st.pruned.length) ∧ 0 < n - st.pruned.length := by
        intro hp
        have hne' : st.pruned ≠ [] := by
          intro hc
          rw [hc] at hp
          exact hp rfl
        have hdiv := divOk hd0 hdn' (Or.inl hne')
        rwa [hlenI] at hdiv
      have hAC2 : AC = refineActive n d st.pruned.length (n - st.pruned.length) sel := by
        rw [hACdef, hlenI]
      have hspec := refineActive_spec n d st.pruned.length sel hd0 hdn' hk hprev
      rw [← hAC2] at hspec
      apply hspec
      rcases hne with h' | h'
      · left
        intro hc
        apply h'
        rw [List.length_eq_zero] at hc
        exact hc
      · right
        exact h'

theorem inv_of_reach {n d : ℕ} {st : GroupState} (h : Reach n d st) : Inv n d st := by
  induction h with
  | start => exact inv_init n d
  | select hr hsel ih => exact inv_identify n d _ _ (inv_commit n d _ ih) rfl hsel
  | commitOnly hr ih => exact inv_commit n d _ ih

theorem pruned_length_commit (n : ℕ) (st : GroupState) :
    (commitGroup n st).pruned.length = st.pruned.length + st.active.length := by
  show (st.pruned ++ st.active).length = _
  exact List.length_append _ _

theorem pruned_length_identify (n d : ℕ) (st : GroupState) (sel : List ℕ) (h : Inv n d st) :
    st.pruned.length ≤ (identifyGroup n d sel st).pruned.length := by
  unfold identifyGroup
  dsimp only
  split
  · next hnd =>
    obtain ⟨hp0, _⟩ := h.small hnd
    rw [hp0]
  · next hnd =>
    exact Nat.le_refl _

theorem pruned_mono_step (s : StepSpec) (h : Reach s.n s.d s.st) :
    s.st.pruned.length ≤ (stepIdx s).pruned.length := by
  have hinv := inv_of_reach h
  have h1 := pruned_length_identify s.n s.d (commitGroup s.n s.st) s.sel
    (inv_commit s.n s.d s.st hinv)
  have h2 := pruned_length_commit s.n s.st
  unfold stepIdx
  dsimp only
  have key : ∀ st1 : GroupState, s.st.pruned.length ≤ st1.pruned.length →
      s.st.pruned.length ≤ (if s.doCommit then commitGroup s.n st1 else st1).pruned.length := by
    intro st1 hle
    split
    · rw [pruned_length_commit]
      omega
    · exact hle
  apply key
  split
  · omega
  · exact Nat.le_refl _

theorem topkLowest_nodup (scores : List ℚ) (K : ℕ) : (topkLowest scores K).Nodup := by
  unfold topkLowest
  apply List.Nodup.sublist (List.take_sublist _ _)
  exact ((List.perm_insertionSort (leScore scores) (List.range scores.length)).nodup_iff).mpr
    (List.nodup_range _)

theorem selectRedundantCluster_no_dedup (scores : List ℚ) (pruned : List ℕ) (quota : ℕ) :
    selectRedundantCluster scores pruned quota =
      (List.insertionSort (fun i j => i ≤ j)
        ((topkLowest scores (pruned.length + quota)).filter
          (fun i => decide (i ∉ pruned)))).take quota := by
  unfold selectRedundantCluster npSetdiff1d
  rw [List.dedup_eq_self.mpr ((topkLowest_nodup _ _).filter _)]

theorem selectRedundantCluster_sorted (scores : List ℚ) (pruned : List ℕ) (quota : ℕ) :
    List.Sorted (fun i j => i ≤ j) (selectRedundantCluster scores pruned quota) := by
  unfold selectRedundantCluster npSetdiff1d
  apply List.Pairwise.sublist (List.take_sublist _ _)
  exact List.sorted_insertionSort _ _

theorem mem_selectRedundantCluster {scores : List ℚ} {pruned : List ℕ} {quota : ℕ} {i : ℕ}
    (hi : i ∈ selectRedundantCluster scores pruned quota) :
    i ∈ topkLowest scores (pruned.length + quota) ∧ i ∉ pruned := by
  unfold selectRedundantCluster npSetdiff1d at hi
  have h1 := List.take_subset _ _ hi
  have h2 := (List.perm_insertionSort _ _).subset h1
  rw [List.mem_dedup, List.mem_filter] at h2
  obtain ⟨hmem, hdec⟩ := h2
  exact ⟨hmem, by simpa using hdec⟩

theorem selectRedundantCluster_nodup (scores : List ℚ) (pruned : List ℕ) (quota : ℕ) :
    (selectRedundantCluster scores pruned quota).Nodup := by
  unfold selectRedundantCluster npSetdiff1d
  apply List.Nodup.sublist (List.take_sublist _ _)
  apply ((List.perm_insertionSort _ _).nodup_iff).mpr
  exact List.nodup_dedup _

theorem localSelection_mem {top : List ℕ} {global_start n i : ℕ}
    (hi : i ∈ localSelection top global_start n) :
    i < n ∧ global_start + i ∈ top := by
  unfold localSelection at hi
  obtain ⟨g, hg, hgi⟩ := List.mem_map.mp hi
  obtain ⟨hgr, hgt⟩ := List.mem_filter.mp hg
  obtain ⟨j, hj, hje⟩ := List.mem_map.mp hgr
  rw [List.mem_range] at hj
  have hgmem : g ∈ top := by simpa using hgt
  constructor
  · omega
  · have : global_start + i = g := by omega
    rw [this]
    exact hgmem

theorem localSelection_nodup (top : List ℕ) (global_start n : ℕ) :
    (localSelection top global_start n).Nodup := by
  unfold localSelection
  apply List.Nodup.map_on
  · intro x hx y hy hxy
    obtain ⟨hxr, _⟩ := List.mem_filter.mp hx
    obtain ⟨j, hj, hje⟩ := List.mem_map.mp hxr
    obtain ⟨hyr, _⟩ := List.mem_filter.mp hy
    obtain ⟨j', hj', hje'⟩ := List.mem_map.mp hyr
    omega
  · apply List.Nodup.filter
    apply List.Nodup.map_on
    · intro x _ y _ hxy
      omega
    · exact List.nodup_range n

/-- C1: the claim says that with a scalar `target_group_sparsity` every
prunable parameter group belongs to the implicit "overall" cluster and is
counted in the total group count.  The code instead tests the string
"overall" as a substring of each tensor name (line 82), so a prunable
group with ordinary tensor names joins no cluster and the total prunable
group count is 0; a group only joins when a tensor name literally contains
"overall".  This theorem evaluates the embedded constructor logic at such
a failing input. -/
theorem C1_scalar_overall_cluster_empty :
    clusterMembers "overall" [⟨["model.layer1.lora_B"], 8, true⟩] = [] ∧
    totalNumGroupsScalar [⟨["model.layer1.lora_B"], 8, true⟩] = 0 ∧
    clusterMembers "overall" [⟨["model.overall.lora_B"], 8, true⟩] =
      [⟨["model.overall.lora_B"], 8, true⟩] := by
  refine ⟨?_, ?_, ?_⟩ <;> decide

/-- C2: the claim says a tensor with an absent gradient is skipped without
error in every branch of the update pass.  In the branch for groups with a
non-empty active-redundant set the guard is commented out (lines 321-322),
so the lookup `group['grad_variant'][p_name]` for a "lora_B" tensor whose
gradient is absent raises KeyError (modelled: `none`), while the branch
for groups without active-redundant indices does skip the tensor. -/
theorem C2_missing_gradient_key_error :
    updateActiveB (gradVariantOf [("m.lora_B", none)]) 1 "m.lora_B" 5 = none ∧
    updateNoActive (gradVariantOf [("m.lora_B", none)]) 1 "m.lora_B" 5 = 5 ∧
    (updateActiveB (gradVariantOf [("m.lora_B", some 2)]) 1 "m.lora_B" 5).isSome = true := by
  refine ⟨?_, ?_, ?_⟩ <;> decide

/-- C3 counterexample: the claim says the newly-active-redundant set keeps
the first `quota` non-pruned indices in ascending order of importance
score.  With scores [20, 2, 1, 10], pruned = [0] and quota = 1 the code
takes the K = 2 lowest-scoring indices {2, 1}, but `np.setdiff1d` returns
them sorted by index as [1, 2], so the code keeps index 1 (score 2) while
the spec's ascending-score order would keep index 2 (score 1). -/
theorem C3_counterexample :
    selectRedundantCluster [20, 2, 1, 10] [0] 1 = [1] ∧
    selectRedundantSpec [20, 2, 1, 10] [0] 1 = [2] ∧
    selectRedundantCluster [20, 2, 1, 10] [0] 1 ≠ selectRedundantSpec [20, 2, 1, 10] [0] 1 := by
  refine ⟨?_, ?_, ?_⟩ <;> decide

/-- C3 (amended): in each selection round, for each cluster, the
newly-active-redundant set equals the result of taking the K lowest-scoring
global indices with K = (count already pruned in the cluster) + quota,
removing the already-pruned indices, sorting the remainder in ascending
order of global index (`np.setdiff1d` returns an index-sorted array), and
keeping the first quota of those; in particular the result is index-sorted
and consists of non-pruned members of the K lowest-scoring indices. -/
theorem C3_selection_truncates_in_index_order (scores : List ℚ) (clusterPruned : List ℕ)
    (quota : ℕ) :
    selectRedundantCluster scores clusterPruned quota =
      (List.insertionSort (fun i j => i ≤ j)
        ((topkLowest scores (clusterPruned.length + quota)).filter
          (fun i => decide (i ∉ clusterPruned)))).take quota ∧
    List.Sorted (fun i j => i ≤ j) (selectRedundantCluster scores clusterPruned quota) ∧
    ∀ i ∈ selectRedundantCluster scores clusterPruned quota,
      i ∈ topkLowest scores (clusterPruned.length + quota) ∧ i ∉ clusterPruned :=
  ⟨selectRedundantCluster_no_dedup scores clusterPruned quota,
   selectRedundantCluster_sorted scores clusterPruned quota,
   fun _ hi => mem_selectRedundantCluster hi⟩

/-- C4: for every parameter group, initially after construction and after
every step() call, the index sets important, pruned and active-redundant
are pairwise disjoint and their union is the full range
0, ..., num_groups - 1. -/
theorem C4_index_sets_partition (n d : ℕ) (st : GroupState) (h : Reach n d st) :
    st.important.Disjoint st.pruned ∧ st.important.Disjoint st.active ∧
    st.pruned.Disjoint st.active ∧
    (st.important ++ st.pruned ++ st.active).toFinset = Finset.range n := by
  obtain ⟨cf, ndp, nda, dis, bp, ba, small, divOk⟩ := inv_of_reach h
  refine ⟨?_, ?_, ?_, ?_⟩
  · intro a ha hp
    rw [cf] at ha
    exact (mem_canonImportant.mp ha).2.1 hp
  · intro a ha hac
    rw [cf] at ha
    exact (mem_canonImportant.mp ha).2.2 hac
  · intro a hp hac
    exact dis a hac hp
  · ext i
    simp only [List.mem_toFinset, List.mem_append, Finset.mem_range]
    constructor
    · rintro ((h1 | h2) | h3)
      · rw [cf] at h1
        exact (mem_canonImportant.mp h1).1
      · exact bp i h2
      · exact ba i h3
    · intro hi
      by_cases hp : i ∈ st.pruned
      · exact Or.inl (Or.inr hp)
      · by_cases hac : i ∈ st.active
        · exact Or.inr hac
        · apply Or.inl
          apply Or.inl
          rw [cf]
          exact mem_canonImportant.mpr ⟨hi, hp, hac⟩

/-- C4 witness: the partition at a concrete reachable state. -/
theorem C4_index_sets_partition_witness :
    (initState 3).important.Disjoint (initState 3).pruned ∧
    (initState 3).important.Disjoint (initState 3).active ∧
    (initState 3).pruned.Disjoint (initState 3).active ∧
    ((initState 3).important ++ (initState 3).pruned ++ (initState 3).active).toFinset =
      Finset.range 3 :=
  C4_index_sets_partition 3 2 (initState 3) Reach.start

/-- C5: for every parameter group with num_groups at least the
divisibility constraint, at every step at which the group has committed
pruned indices, the size of its important (surviving) index set is a
positive multiple of the divisibility constraint. -/
theorem C5_surviving_count_divisible (n d : ℕ) (st : GroupState) (h : Reach n d st)
    (hd : 0 < d) (hdn : d ≤ n) (hp : st.pruned ≠ []) :
    d ∣ st.important.length ∧ 0 < st.important.length :=
  (inv_of_reach h).divOk hd hdn (Or.inl hp)

/-- C5 witness: a concrete reachable state with a non-empty pruned set. -/
theorem C5_surviving_count_divisible_witness :
    1 ∣ (commitGroup 2 (identifyGroup 2 1 [0] (commitGroup 2 (initState 2)))).important.length ∧
    0 < (commitGroup 2 (identifyGroup 2 1 [0] (commitGroup 2 (initState 2)))).important.length :=
  C5_surviving_count_divisible 2 1 _
    (Reach.commitOnly (Reach.select Reach.start (by decide)))
    (by decide) (by decide) (by decide)

/-- C6: a parameter group with num_groups = 4 and group_divisible = 4 is
never pruned: its pruned and active-redundant sets stay empty at every
reachable state, whatever the importance scores select. -/
theorem C6_group_at_divisibility_never_pruned (st : GroupState) (h : Reach 4 4 st) :
    st.pruned = [] ∧ st.active = [] := by
  have inv := inv_of_reach h
  by_contra hcon
  rw [not_and_or] at hcon
  have hne : st.pruned ≠ [] ∨ st.active ≠ [] := hcon
  obtain ⟨hdvd, hpos⟩ := inv.divOk (by omega) (by omega) hne
  have hlen : st.important.length = 4 - st.pruned.length - st.active.length := by
    rw [inv.cf]
    exact length_canonImportant 4 st.pruned st.active inv.ndp inv.nda inv.dis inv.bp inv.ba
  have hle := length_add_length_le 4 st.pruned st.active inv.ndp inv.nda inv.dis inv.bp inv.ba
  have hppos : 0 < st.pruned.length + st.active.length := by
    rcases hne with h' | h'
    · have := List.length_pos.mpr h'
      omega
    · have := List.length_pos.mpr h'
      omega
  rw [hlen] at hdvd hpos
  omega

/-- C6 witness: a selection round on the 4-of-4 group leaves both sets
empty. -/
theorem C6_group_at_divisibility_never_pruned_witness :
    (identifyGroup 4 4 [1, 2] (commitGroup 4 (initState 4))).pruned = [] ∧
    (identifyGroup 4 4 [1, 2] (commitGroup 4 (initState 4))).active = [] :=
  C6_group_at_divisibility_never_pruned _ (Reach.select Reach.start (by decide))

/-- C7: across one step() call, the total number of permanently-pruned
structural groups summed over all parameter groups never decreases. -/
theorem C7_total_pruned_monotone (l : List StepSpec) (h : ∀ s ∈ l, Reach s.n s.d s.st) :
    totalPrunedBefore l ≤ totalPrunedAfter l := by
  unfold totalPrunedBefore totalPrunedAfter
  exact List.sum_le_sum (fun s hs => pruned_mono_step s (h s hs))

/-- C7 witness: one group performing a full select-and-commit step. -/
theorem C7_total_pruned_monotone_witness :
    totalPrunedBefore [⟨2, 1, initState 2, true, [0], true⟩] ≤
      totalPrunedAfter [⟨2, 1, initState 2, true, [0], true⟩] :=
  C7_total_pruned_monotone [⟨2, 1, initState 2, true, [0], true⟩]
    (by
      intro s hs
      rw [List.mem_singleton] at hs
      subst hs
      exact Reach.start)

/-- C8: the decay ramp (T - t - 1)/(T - t) is applied with t = (num_steps -
start_pruning_step) mod T, which lies in [0, T), so its denominator is
positive; across the steps t1 < t2 of one period the factor strictly
decreases; and at the committing step t = T - 1 the factor is exactly 0,
so a slice multiplied by it is exactly zero. -/
theorem C8_decay_ramp (T num_steps start_step t1 t2 : ℤ) (x : ℚ) (hT : 0 < T)
    (h1 : 0 ≤ t1) (h12 : t1 < t2) (h2 : t2 < T) :
    0 < (T : ℚ) - ((tCounter num_steps start_step T : ℤ) : ℚ) ∧
    rampFactor T t2 < rampFactor T t1 ∧
    rampFactor T (T - 1) = 0 ∧
    x * rampFactor T (T - 1) = 0 := by
  have hzero : rampFactor T (T - 1) = 0 := by
    unfold rampFactor
    have hnum : (T : ℚ) - ((T - 1 : ℤ) : ℚ) - 1 = 0 := by
      push_cast
      ring
    rw [hnum, zero_div]
  refine ⟨?_, ?_, hzero, by rw [hzero, mul_zero]⟩
  · have ht := Int.emod_lt_of_pos (num_steps - start_step) hT
    unfold tCounter
    have hq : (((num_steps - start_step) % T : ℤ) : ℚ) < (T : ℚ) := by exact_mod_cast ht
    linarith
  · have hd1 : (0 : ℚ) < (T : ℚ) - (t1 : ℚ) := by
      have hc : (t1 : ℚ) < (T : ℚ) := by exact_mod_cast lt_trans h12 h2
      linarith
    have hd2 : (0 : ℚ) < (T : ℚ) - (t2 : ℚ) := by
      have hc : (t2 : ℚ) < (T : ℚ) := by exact_mod_cast h2
      linarith
    have ht12 : (t1 : ℚ) < (t2 : ℚ) := by exact_mod_cast h12
    unfold rampFactor
    rw [div_lt_div_iff₀ hd2 hd1]
    nlinarith [ht12, hd1, hd2]

/-- C8 witness: period length 3: the counter for step 7 with start 2 gives
a positive denominator, the ramp decreases from t = 0 to t = 1, and it is
exactly zero at t = 2. -/
theorem C8_decay_ramp_witness :
    0 < (3 : ℚ) - ((tCounter 7 2 3 : ℤ) : ℚ) ∧
    rampFactor 3 1 < rampFactor 3 0 ∧
    rampFactor 3 (3 - 1) = 0 ∧
    (5 : ℚ) * rampFactor 3 (3 - 1) = 0 :=
  C8_decay_ramp 3 7 2 0 1 5 (by decide) (by decide) (by decide) (by decide)

/-- C9: for the adam and adamw variants the step counter is incremented
before compute_grad_variant runs, so on the very first step() call the
bias-correction denominators are 1 - first_momentum^1 and
1 - second_momentum^1, which are positive (hence nonzero) for momentum
coefficients in [0, 1). -/
theorem C9_first_step_bias_correction (m1 m2 : ℚ) (h1 : 0 ≤ m1) (h1' : m1 < 1)
    (h2 : 0 ≤ m2) (h2' : m2 < 1) :
    biasCorrection m1 numStepsAtFirstGradVariant = 1 - m1 ∧
    biasCorrection m2 numStepsAtFirstGradVariant = 1 - m2 ∧
    0 < biasCorrection m1 numStepsAtFirstGradVariant ∧
    0 < biasCorrection m2 numStepsAtFirstGradVariant := by
  have e1 : biasCorrection m1 numStepsAtFirstGradVariant = 1 - m1 := by
    unfold biasCorrection numStepsAtFirstGradVariant
    norm_num
  have e2 : biasCorrection m2 numStepsAtFirstGradVariant = 1 - m2 := by
    unfold biasCorrection numStepsAtFirstGradVariant
    norm_num
  refine ⟨e1, e2, ?_, ?_⟩
  · rw [e1]
    linarith
  · rw [e2]
    linarith

/-- C9 witness: the adam defaults 0.9 and 0.999. -/
theorem C9_first_step_bias_correction_witness :
    biasCorrection (9 / 10) numStepsAtFirstGradVariant = 1 - 9 / 10 ∧
    biasCorrection (999 / 1000) numStepsAtFirstGradVariant = 1 - 999 / 1000 ∧
    0 < biasCorrection (9 / 10) numStepsAtFirstGradVariant ∧
    0 < biasCorrection (999 / 1000) numStepsAtFirstGradVariant :=
  C9_first_step_bias_correction (9 / 10) (999 / 1000) (by norm_num) (by norm_num)
    (by norm_num) (by norm_num)

/-- C10: a non-positive integer pruning_periods together with a positive
pruning_steps does not make construction fail: the stored period count is
max(1, pruning_periods) = 1, so the period-length division never divides
by zero and the duration equals pruning_steps. -/
theorem C10_pruning_periods_clamped (pp ps : ℤ) (hpp : pp ≤ 0) (hps : 0 < ps) :
    pruningPeriodsStored pp = 1 ∧ 1 ≤ pruningPeriodsStored pp ∧
    pruningPeriodsStored pp ≠ 0 ∧ pruningPeriodDurationOf ps pp = ps := by
  have hone : pruningPeriodsStored pp = 1 := by
    unfold pruningPeriodsStored
    exact max_eq_left (by omega)
  refine ⟨hone, by omega, by omega, ?_⟩
  unfold pruningPeriodDurationOf
  rw [hone]
  exact Int.fdiv_one ps

/-- C10 witness: pruning_periods = -3 and pruning_steps = 10. -/
theorem C10_pruning_periods_clamped_witness :
    pruningPeriodsStored (-3) = 1 ∧ 1 ≤ pruningPeriodsStored (-3) ∧
    pruningPeriodsStored (-3) ≠ 0 ∧ pruningPeriodDurationOf 10 (-3) = 10 :=
  C10_pruning_periods_clamped (-3) 10 (by decide) (by decide)

end LHSPG
